import Mathlib

/-!
Verification of the `scrypt` crate (file `src/scrypt/src/lib.rs`).

Bytes are modelled as `Nat` (values `< 256` in practice), buffers as
`List Nat`.  The external PBKDF2 collaborator is an abstract function
parameter; the spec only requires it to be deterministic and to fill its
output buffer, so theorems quantify over any such function.

The modules `params.rs` and `romix.rs` of this crate are not part of the
provided sources; their definitions below are modelled from the spec
(sections 4.1 to 4.4) and are marked as such.
-/

/-- The word modulus: all Salsa20/8 arithmetic is mod 2^32. -/
def w32 : Nat := 4294967296

/-- Little-endian serialization of a 32-bit word into 4 bytes,
as `LittleEndian::write_u32` of the `byteorder` collaborator. -/
def le32 (x : Nat) : List Nat :=
  [x % 256, x / 256 % 256, x / 65536 % 256, x / 16777216 % 256]

/-- Little-endian deserialization of the first 4 bytes of a list,
as `LittleEndian::read_u32` of the `byteorder` collaborator. -/
def readLe32 (l : List Nat) : Nat :=
  l.getD 0 0 + 256 * l.getD 1 0 + 65536 * l.getD 2 0 + 16777216 * l.getD 3 0

/-- A whole little-endian byte list read as an unbounded integer
(used by Integerify). -/
def leNat : List Nat → Nat
  | [] => 0
  | b :: t => b % 256 + 256 * leNat t

/-- Left rotation of a 32-bit word by `k` bits (for `x < 2^32`). -/
def rotl32 (x k : Nat) : Nat :=
  (x * 2 ^ k) % w32 + x / 2 ^ (32 - k)

/-- Byte-wise XOR of two equal-length buffers. -/
def xorBytes (a b : List Nat) : List Nat := List.zipWith Nat.xor a b

/-- Modelled from the spec: one Salsa20 double-round (4 column operations
then 4 row operations, add-rotate-XOR with rotation constants 7, 9, 13, 18
in the canonical Salsa index pattern), on a 16-word state.  `romix.rs` is
not among the provided sources; this follows spec section 4.2. -/
def salsaRound (s : List Nat) : List Nat :=
  match s with
  | [y0, y1, y2, y3, y4, y5, y6, y7, y8, y9, y10, y11, y12, y13, y14, y15] =>
    let x4 := y4 ^^^ rotl32 ((y0 + y12) % w32) 7
    let x8 := y8 ^^^ rotl32 ((x4 + y0) % w32) 9
    let x12 := y12 ^^^ rotl32 ((x8 + x4) % w32) 13
    let x0 := y0 ^^^ rotl32 ((x12 + x8) % w32) 18
    let x9 := y9 ^^^ rotl32 ((y5 + y1) % w32) 7
    let x13 := y13 ^^^ rotl32 ((x9 + y5) % w32) 9
    let x1 := y1 ^^^ rotl32 ((x13 + x9) % w32) 13
    let x5 := y5 ^^^ rotl32 ((x1 + x13) % w32) 18
    let x14 := y14 ^^^ rotl32 ((y10 + y6) % w32) 7
    let x2 := y2 ^^^ rotl32 ((x14 + y10) % w32) 9
    let x6 := y6 ^^^ rotl32 ((x2 + x14) % w32) 13
    let x10 := y10 ^^^ rotl32 ((x6 + x2) % w32) 18
    let x3 := y3 ^^^ rotl32 ((y15 + y11) % w32) 7
    let x7 := y7 ^^^ rotl32 ((x3 + y15) % w32) 9
    let x11 := y11 ^^^ rotl32 ((x7 + x3) % w32) 13
    let x15 := y15 ^^^ rotl32 ((x11 + x7) % w32) 18
    let z1 := x1 ^^^ rotl32 ((x0 + x3) % w32) 7
    let z2 := x2 ^^^ rotl32 ((z1 + x0) % w32) 9
    let z3 := x3 ^^^ rotl32 ((z2 + z1) % w32) 13
    let z0 := x0 ^^^ rotl32 ((z3 + z2) % w32) 18
    let z6 := x6 ^^^ rotl32 ((x5 + x4) % w32) 7
    let z7 := x7 ^^^ rotl32 ((z6 + x5) % w32) 9
    let z4 := x4 ^^^ rotl32 ((z7 + z6) % w32) 13
    let z5 := x5 ^^^ rotl32 ((z4 + z7) % w32) 18
    let z11 := x11 ^^^ rotl32 ((x10 + x9) % w32) 7
    let z8 := x8 ^^^ rotl32 ((z11 + x10) % w32) 9
    let z9 := x9 ^^^ rotl32 ((z8 + z11) % w32) 13
    let z10 := x10 ^^^ rotl32 ((z9 + z8) % w32) 18
    let z12 := x12 ^^^ rotl32 ((x15 + x14) % w32) 7
    let z13 := x13 ^^^ rotl32 ((z12 + x15) % w32) 9
    let z14 := x14 ^^^ rotl32 ((z13 + z12) % w32) 13
    let z15 := x15 ^^^ rotl32 ((z14 + z13) % w32) 18
    [z0, z1, z2, z3, z4, z5, z6, z7, z8, z9, z10, z11, z12, z13, z14, z15]
  | _ => s

/-- Iterate a function `n` times. -/
def iterN (f : α → α) : Nat → α → α
  | 0, a => a
  | n + 1, a => iterN f n (f a)

/-- Split a buffer into chunks of `k` bytes (the last chunk may be
shorter), as Rust's `chunks`.  A chunk size of 0 panics in Rust; it is
modelled as the empty result and is unreachable for validated
parameters. -/
def chunksOf (k : Nat) (b : List Nat) : List (List Nat) :=
  if b = [] ∨ k = 0 then []
  else b.take k :: chunksOf k (b.drop k)
termination_by b.length
decreasing_by
  rcases not_or.mp (by assumption) with ⟨hb, hk⟩
  simpa [List.length_drop] using
    Nat.sub_lt (List.length_pos.mpr hb) (Nat.pos_of_ne_zero hk)

/-- Modelled from the spec: the Salsa20/8 core on a 64-byte block,
`output = input + F^8(input)` word-wise mod 2^32 over the little-endian
32-bit words (spec section 4.2). -/
def salsa20_8 (b : List Nat) : List Nat :=
  let x := (chunksOf 4 b).map readLe32
  ((List.zipWith (fun a c => (a + c) % w32) x (iterN salsaRound 8 x)).map le32).flatten

/-- The chain of running values `X` produced by BlockMix: starting from
`x`, XOR with each 64-byte sub-block in order and apply Salsa20/8. -/
def bmSeq (x : List Nat) : List (List Nat) → List (List Nat)
  | [] => []
  | bl :: rest =>
    let y := salsa20_8 (xorBytes x bl)
    y :: bmSeq y rest

/-- Elements of a list at even positions. -/
def evens : List α → List α
  | [] => []
  | [a] => [a]
  | a :: _ :: t => a :: evens t

/-- Elements of a list at odd positions. -/
def odds : List α → List α
  | [] => []
  | _ :: t => evens t

/-- Modelled from the spec: BlockMix on a `128*r`-byte buffer of `2r`
64-byte sub-blocks — running value initialized to the last sub-block,
chained Salsa20/8 applications, then the deinterleave shuffle placing
even-position results first and odd-position results second
(spec section 4.3). -/
def blockMix (b : List Nat) : List Nat :=
  let blocks := chunksOf 64 b
  let x := blocks.getLastD (List.replicate 64 0)
  let ys := bmSeq x blocks
  (evens ys ++ odds ys).flatten

/-- Modelled from the spec: Integerify — the last 64-byte sub-block of
`x` read as a little-endian integer, reduced mod `n` (spec section 4.4). -/
def integerify (x : List Nat) (n : Nat) : Nat :=
  leNat (x.drop (x.length - 64)) % n

/-- The fill phase of ROMix: returns the scratch list `[V 0, ..., V (n-1)]`
together with the continuation value `BlockMix (V (n-1))`. -/
def vFill (b : List Nat) : Nat → List (List Nat) × List Nat
  | 0 => ([], b)
  | k + 1 =>
    let rest := vFill (blockMix b) k
    (b :: rest.1, rest.2)

/-- The random-access mix phase of ROMix: `k` iterations of
`X := BlockMix (X XOR V (Integerify X mod n))`. -/
def mixLoop (v : List (List Nat)) (n : Nat) (x : List Nat) : Nat → List Nat
  | 0 => x
  | k + 1 =>
    let j := integerify x n
    mixLoop v n (blockMix (xorBytes x (v.getD j []))) k

/-- Modelled from the spec: `scrypt_ro_mix` of the missing `romix.rs` —
sequential fill of the scratch array `V` with `n` block copies, then `n`
pseudo-random read-modify-write iterations; the output overwrites the
input block (spec section 4.4).  The scratch buffers `V` and `T` of the
Rust signature are fully overwritten before any read, so the result is a
function of the block and `n` alone. -/
def scrypt_ro_mix (block : List Nat) (n : Nat) : List Nat :=
  let fill := vFill block n
  mixLoop fill.1 n fill.2 n

/-- Scrypt cost parameters, as the (crate-private) fields of
`ScryptParams` in the missing `params.rs`. -/
structure ScryptParams where
  log_n : Nat
  r : Nat
  p : Nat
deriving DecidableEq

/-- Error type `errors::InvalidParams`. -/
inductive InvalidParams
  | mk
deriving DecidableEq

/-- Error type `errors::InvalidOutputLen`. -/
inductive InvalidOutputLen
  | mk
deriving DecidableEq

/-- Error type `errors::CheckError`. -/
inductive CheckError
  | InvalidFormat
  | HashMismatch
deriving DecidableEq

/-- Largest value of the platform size type (`usize`), for the common
64-bit platform. -/
def usizeMax : Nat := 18446744073709551615

/-- Modelled from the spec: `ScryptParams::new` of the missing
`params.rs` — compute `n = 2^log_n`; reject `r = 0` or `p = 0`; reject
any of `128*r`, `n*(128*r)`, `p*(128*r)` overflowing the platform size
type; otherwise produce the immutable parameter object
(spec section 4.1). -/
def ScryptParams.new (log_n r p : Nat) : Except InvalidParams ScryptParams :=
  let n := 2 ^ log_n
  if r = 0 then .error .mk
  else if p = 0 then .error .mk
  else if 128 * r > usizeMax then .error .mk
  else if n * (128 * r) > usizeMax then .error .mk
  else if p * (128 * r) > usizeMax then .error .mk
  else .ok ⟨log_n, r, p⟩

/-- The type of the external PBKDF2 collaborator:
`(password, salt, rounds, output length) ↦ output bytes`. -/
abbrev Pbkdf2 := List Nat → List Nat → Nat → Nat → List Nat

/-- The interface contract of the PBKDF2 collaborator: it fills its
output buffer completely (spec section 6). -/
def PbLen (pb : Pbkdf2) : Prop :=
  ∀ pw s c l, (pb pw s c l).length = l

/-- Apply `f` in place to each `k`-byte chunk of a buffer, as the loop
`for chunk in &mut b.chunks_mut(r128) { romix::scrypt_ro_mix(...) }`.
A chunk size of 0 panics in Rust; it is modelled as the empty result and
is unreachable for validated parameters. -/
def chunksApply (f : List Nat → List Nat) (k : Nat) (b : List Nat) : List Nat :=
  if b = [] ∨ k = 0 then []
  else f (b.take k) ++ chunksApply f k (b.drop k)
termination_by b.length
decreasing_by
  rcases not_or.mp (by assumption) with ⟨hb, hk⟩
  simpa [List.length_drop] using
    Nat.sub_lt (List.length_pos.mpr hb) (Nat.pos_of_ne_zero hk)

/-- The `scrypt` function of `lib.rs`.  The returned pair is the
`Result` together with the final contents of the caller's mutable
`output` buffer: on the early `InvalidOutputLen` return the buffer is
untouched, otherwise the final PBKDF2 call fills it. -/
def scrypt (pb : Pbkdf2) (password salt : List Nat) (params : ScryptParams)
    (output : List Nat) : Except InvalidOutputLen Unit × List Nat :=
  if ¬ (output.length > 0 ∧ output.length / 32 ≤ 4294967295) then
    (.error .mk, output)
  else
    let n := 2 ^ params.log_n
    let r128 := params.r * 128
    let pr128 := params.p * r128
    let b := pb password salt 1 pr128
    let b2 := chunksApply (fun chunk => scrypt_ro_mix chunk n) r128 b
    (.ok (), pb password b2 1 output.length)

/-- A concrete PBKDF2 instance satisfying the interface contract, used
to instantiate witnesses. -/
def pbZero : Pbkdf2 := fun _ _ _ l => List.replicate l 0

/-- Replace, for each index `i` taken from `order` in turn, the `i`-th
chunk by `f` of itself.  The source processes the `p` chunks in
ascending order; this generalizes the processing order to state the
independence property. -/
def applyOrder (f : List Nat → List Nat) (order : List Nat)
    (cs : List (List Nat)) : List (List Nat) :=
  order.foldl (fun acc i => acc.set i (f (acc.getD i []))) cs

/-- The `scrypt` function with the ROMix loop running over the `p`
chunks in the order given by `order` instead of ascending order;
`scryptOrd` with `order = [0, ..., p-1]` is the source's loop. -/
def scryptOrd (pb : Pbkdf2) (order : List Nat) (password salt : List Nat)
    (params : ScryptParams) (output : List Nat) :
    Except InvalidOutputLen Unit × List Nat :=
  if ¬ (output.length > 0 ∧ output.length / 32 ≤ 4294967295) then
    (.error .mk, output)
  else
    let n := 2 ^ params.log_n
    let r128 := params.r * 128
    let pr128 := params.p * r128
    let b := pb password salt 1 pr128
    let b2 :=
      (applyOrder (fun chunk => scrypt_ro_mix chunk n) order (chunksOf r128 b)).flatten
    (.ok (), pb password b2 1 output.length)

/-- Split a character list at every `'$'`, as Rust's `str::split('$')`:
leading, trailing and repeated separators produce empty fields. -/
def splitD : List Char → List (List Char)
  | [] => [[]]
  | c :: t =>
    if c = '$' then [] :: splitD t
    else
      match splitD t with
      | [] => [[c]]
      | f :: fs => (c :: f) :: fs

/-- Rejoin fields with `'$'`: the left inverse of `splitD`. -/
def joinD : List (List Char) → List Char
  | [] => []
  | [f] => f
  | f :: g :: fs => f ++ '$' :: joinD (g :: fs)

/-- The parameter-field interpretation of `scrypt_check` (the `match
fstr` expression): format `"0"` takes 3 bytes `log_n, r, p`; format
`"1"` takes 9 bytes, `r` and `p` little-endian 32-bit; anything else is
a format error, and a constructor failure is reported as a format
error. -/
def parseParams (fstr : List Char) (pvec : List Nat) :
    Except CheckError ScryptParams :=
  if fstr = "0".data ∧ pvec.length = 3 then
    (ScryptParams.new (pvec.getD 0 0) (pvec.getD 1 0) (pvec.getD 2 0)).mapError
      fun _ => .InvalidFormat
  else if fstr = "1".data ∧ pvec.length = 9 then
    (ScryptParams.new (pvec.getD 0 0) (readLe32 (pvec.drop 1))
        (readLe32 (pvec.drop 5))).mapError
      fun _ => .InvalidFormat
  else .error .InvalidFormat

/-- The body of `scrypt_check` after splitting at `'$'`: the sequence of
`iter.next()` checks of the source, modelled by successive destructuring
of the field list.  `b64d` is the abstract base64-decode collaborator;
the final constant-time comparison collaborator is modelled by its
functional behaviour, byte-list equality. -/
def checkFields (pb : Pbkdf2) (b64d : List Char → Option (List Nat))
    (password : List Nat) (fields : List (List Char)) : Except CheckError Unit :=
  match fields with
  | [] => .error .InvalidFormat
  | f0 :: rest =>
    if f0 ≠ ([] : List Char) then .error .InvalidFormat
    else
      match rest with
      | [] => .error .InvalidFormat
      | f1 :: rest =>
        if f1 ≠ "rscrypt".data then .error .InvalidFormat
        else
          match rest with
          | [] => .error .InvalidFormat
          | fstr :: rest =>
            match rest with
            | [] => .error .InvalidFormat
            | pstr :: rest =>
              match b64d pstr with
              | none => .error .InvalidFormat
              | some pvec =>
                match parseParams fstr pvec with
                | .error e => .error e
                | .ok params =>
                  match rest with
                  | [] => .error .InvalidFormat
                  | sstr :: rest =>
                    match b64d sstr with
                    | none => .error .InvalidFormat
                    | some salt =>
                      match rest with
                      | [] => .error .InvalidFormat
                      | hstr :: rest =>
                        match b64d hstr with
                        | none => .error .InvalidFormat
                        | some hash =>
                          if rest.head? ≠ some ([] : List Char) then
                            .error .InvalidFormat
                          else if rest.tail ≠ ([] : List (List Char)) then
                            .error .InvalidFormat
                          else
                            let res :=
                              scrypt pb password salt params
                                (List.replicate hash.length 0)
                            match res.1 with
                            | .error _ => .error .InvalidFormat
                            | .ok _ =>
                              if res.2 = hash then .ok ()
                              else .error .HashMismatch

/-- The `scrypt_check` function of `lib.rs`, over the abstract base64
decoder `b64d` and PBKDF2 collaborator `pb`. -/
def scrypt_check (pb : Pbkdf2) (b64d : List Char → Option (List Nat))
    (password : List Nat) (hashed_value : List Char) : Except CheckError Unit :=
  checkFields pb b64d password (splitD hashed_value)

/-- The `scrypt_simple` function of `lib.rs`, over the abstract base64
encoder `b64e` and PBKDF2 collaborator `pb`.  The 16 random salt bytes
produced by `OsRng` are the `salt` argument; the derived key is the
buffer filled by the inner `scrypt` call (32 bytes, for which the
`expect` can never fire). -/
def scrypt_simple (pb : Pbkdf2) (b64e : List Nat → List Char)
    (salt : List Nat) (password : List Nat) (params : ScryptParams) : List Char :=
  let dk := (scrypt pb password salt params (List.replicate 32 0)).2
  "$rscrypt$".data ++
    (if params.r < 256 ∧ params.p < 256 then
      "0$".data ++ b64e [params.log_n, params.r % 256, params.p % 256]
    else
      "1$".data ++ b64e ([params.log_n] ++ le32 params.r ++ le32 params.p)) ++
    "$".data ++ b64e salt ++ "$".data ++ b64e dk ++ "$".data

/-- A concrete injective-enough byte-to-letter encoder standing in for
base64 in witnesses: it never emits `'$'`. -/
def b64eW : List Nat → List Char :=
  fun bs => bs.map (fun n => Char.ofNat (97 + n % 26))

/-- A concrete decoder matched to `b64eW` on the three field values
appearing in the round-trip witness. -/
def b64dW : List Char → Option (List Nat) := fun s =>
  if s = b64eW [15, 8, 1] then some [15, 8, 1]
  else if s = b64eW (List.replicate 16 7) then some (List.replicate 16 7)
  else if s = b64eW (List.replicate 32 0) then some (List.replicate 32 0)
  else none

/-- A concrete decoder for the length-handling witness: field `"p"`
holds parameters, `"s"` a 3-byte salt, `"h"` a zero-byte hash. -/
def b64dC10 : List Char → Option (List Nat) := fun s =>
  if s = ['p'] then some [15, 8, 1]
  else if s = ['s'] then some [1, 2, 3]
  else if s = ['h'] then some []
  else none

theorem pbZero_len : PbLen pbZero := by
  intro pw s c l
  simp [pbZero]

theorem chunksApply_cons (f : List Nat → List Nat) (k : Nat) (b : List Nat)
    (hb : b ≠ []) (hk : k ≠ 0) :
    chunksApply f k b = f (b.take k) ++ chunksApply f k (b.drop k) := by
  rw [chunksApply]
  simp [hb, hk]

theorem chunksOf_cons (k : Nat) (b : List Nat) (hb : b ≠ []) (hk : k ≠ 0) :
    chunksOf k b = b.take k :: chunksOf k (b.drop k) := by
  rw [chunksOf]
  simp [hb, hk]

theorem chunksOf_nil (k : Nat) : chunksOf k [] = [] := by
  rw [chunksOf]
  simp

theorem chunksApply_nil (f : List Nat → List Nat) (k : Nat) :
    chunksApply f k [] = [] := by
  rw [chunksApply]
  simp

theorem length_pos_of_mul (p k : Nat) (b : List Nat) (hk : k ≠ 0)
    (hlen : b.length = (p + 1) * k) : b ≠ [] := by
  intro h
  subst h
  simp only [List.length_nil] at hlen
  exact Nat.mul_ne_zero (Nat.succ_ne_zero p) hk hlen.symm

theorem chunksOf_length (k : Nat) (hk : k ≠ 0) :
    ∀ (p : Nat) (b : List Nat), b.length = p * k → (chunksOf k b).length = p := by
  intro p
  induction p with
  | zero =>
    intro b hb
    have : b = [] := List.eq_nil_of_length_eq_zero (by omega)
    subst this
    simp [chunksOf_nil]
  | succ q ih =>
    intro b hb
    have hbne : b ≠ [] := length_pos_of_mul q k b hk hb
    rw [chunksOf_cons k b hbne hk]
    have hdrop : (b.drop k).length = q * k := by
      simp [List.length_drop, hb, Nat.succ_mul]
    simp [ih (b.drop k) hdrop]

theorem chunksOf_mem_length (k : Nat) (hk : k ≠ 0) :
    ∀ (p : Nat) (b : List Nat), b.length = p * k →
      ∀ c ∈ chunksOf k b, c.length = k := by
  intro p
  induction p with
  | zero =>
    intro b hb c hc
    have : b = [] := List.eq_nil_of_length_eq_zero (by omega)
    subst this
    simp [chunksOf_nil] at hc
  | succ q ih =>
    intro b hb c hc
    have hbne : b ≠ [] := length_pos_of_mul q k b hk hb
    rw [chunksOf_cons k b hbne hk] at hc
    have hdrop : (b.drop k).length = q * k := by
      simp [List.length_drop, hb, Nat.succ_mul]
    rcases List.mem_cons.mp hc with hc | hc
    · subst hc
      have hge : k ≤ b.length := by
        rw [hb]
        exact Nat.le_mul_of_pos_left k (Nat.succ_pos q)
      simp only [List.length_take]
      omega
    · exact ih (b.drop k) hdrop c hc

theorem chunksApply_eq_flatten_map (f : List Nat → List Nat) (k : Nat) (hk : k ≠ 0) :
    ∀ (p : Nat) (b : List Nat), b.length = p * k →
      chunksApply f k b = ((chunksOf k b).map f).flatten := by
  intro p
  induction p with
  | zero =>
    intro b hb
    have : b = [] := List.eq_nil_of_length_eq_zero (by omega)
    subst this
    simp [chunksOf_nil, chunksApply_nil]
  | succ q ih =>
    intro b hb
    have hbne : b ≠ [] := length_pos_of_mul q k b hk hb
    have hdrop : (b.drop k).length = q * k := by
      simp [List.length_drop, hb, Nat.succ_mul]
    rw [chunksApply_cons f k b hbne hk, chunksOf_cons k b hbne hk]
    simp [ih (b.drop k) hdrop]

theorem applyOrder_cons (f : List Nat → List Nat) (i : Nat) (order : List Nat)
    (cs : List (List Nat)) :
    applyOrder f (i :: order) cs = applyOrder f order (cs.set i (f (cs.getD i []))) := rfl

theorem applyOrder_getElem? (f : List Nat → List Nat) :
    ∀ (order : List Nat) (cs : List (List Nat)), order.Nodup → ∀ j : Nat,
      (applyOrder f order cs)[j]? =
        if j ∈ order then cs[j]?.map f else cs[j]? := by
  intro order
  induction order with
  | nil =>
    intro cs _ j
    simp [applyOrder]
  | cons a order ih =>
    intro cs hnd j
    rcases List.nodup_cons.mp hnd with ⟨ha, hnd'⟩
    rw [applyOrder_cons, ih _ hnd' j]
    by_cases hj : j ∈ order
    · have hja : j ≠ a := fun h => ha (h ▸ hj)
      rw [if_pos hj, if_pos (List.mem_cons_of_mem a hj)]
      rw [List.getElem?_set_ne (fun h => hja h.symm)]
    · rw [if_neg hj]
      by_cases hja : j = a
      · subst hja
        rw [if_pos (List.mem_cons_self j order)]
        by_cases hrange : j < cs.length
        · rw [List.getElem?_set]
          simp only [if_pos rfl, if_pos hrange]
          rw [List.getElem?_eq_getElem hrange]
          simp [List.getD_eq_getElem?_getD, List.getElem?_eq_getElem hrange]
        · rw [List.set_eq_of_length_le (by omega), List.getElem?_eq_none (by omega)]
          simp
      · rw [if_neg (by simp [hja, hj]), List.getElem?_set_ne (fun h => hja h.symm)]

theorem applyOrder_perm (f : List Nat → List Nat) (order : List Nat)
    (cs : List (List Nat)) (hperm : order.Perm (List.range cs.length)) :
    applyOrder f order cs = cs.map f := by
  have hnd : order.Nodup := (hperm.nodup_iff).mpr (List.nodup_range cs.length)
  apply List.ext_getElem?
  intro j
  rw [applyOrder_getElem? f order cs hnd j, List.getElem?_map]
  by_cases hj : j < cs.length
  · rw [if_pos (hperm.mem_iff.mpr (List.mem_range.mpr hj))]
  · rw [if_neg (fun h => hj (List.mem_range.mp (hperm.mem_iff.mp h)))]
    simp [List.getElem?_eq_none (Nat.le_of_not_lt hj)]

theorem scrypt_eq_invalid (pb : Pbkdf2) (pw salt : List Nat) (ps : ScryptParams)
    (out : List Nat) (h : ¬(out.length > 0 ∧ out.length / 32 ≤ 4294967295)) :
    scrypt pb pw salt ps out = (.error .mk, out) := by
  unfold scrypt
  rw [if_pos h]

theorem scrypt_eq_valid (pb : Pbkdf2) (pw salt : List Nat) (ps : ScryptParams)
    (out : List Nat) (h : out.length > 0 ∧ out.length / 32 ≤ 4294967295) :
    scrypt pb pw salt ps out =
      (.ok (),
        pb pw
          (chunksApply (fun chunk => scrypt_ro_mix chunk (2 ^ ps.log_n)) (ps.r * 128)
            (pb pw salt 1 (ps.p * (ps.r * 128))))
          1 out.length) := by
  simp only [scrypt]
  rw [if_neg (not_not_intro h)]

/-- C1: the output-length guard of `scrypt`.  The claim (and the
function's own doc comment) demand failure whenever
`output.len() > (2^32 - 1) * 32`, but the code tests
`output.len() / 32 <= 0xffffffff` with flooring division, so a buffer of
`(2^32 - 1) * 32 + 1` bytes is accepted: the call returns `Ok(())` and
fills all of it. -/
theorem scrypt_over_bound_ok :
    (scrypt pbZero [] [] ⟨1, 1, 1⟩ (List.replicate ((2 ^ 32 - 1) * 32 + 1) 0)).1 = .ok ()
    ∧ (scrypt pbZero [] [] ⟨1, 1, 1⟩ (List.replicate ((2 ^ 32 - 1) * 32 + 1) 0)).2.length
        = (2 ^ 32 - 1) * 32 + 1 := by
  have h : (List.replicate ((2 ^ 32 - 1) * 32 + 1) (0 : Nat)).length > 0
      ∧ (List.replicate ((2 ^ 32 - 1) * 32 + 1) (0 : Nat)).length / 32 ≤ 4294967295 := by
    rw [List.length_replicate]
    norm_num
  rw [scrypt_eq_valid pbZero [] [] ⟨1, 1, 1⟩ _ h]
  refine ⟨rfl, ?_⟩
  simp only [pbZero, List.length_replicate]

/-- C2: for a valid output length and validated parameters, `scrypt` is
the composition: PBKDF2 with one iteration expanding `(password, salt)`
into `p * 128 * r` bytes; ROMix applied to each of the `p` contiguous
`128 * r`-byte chunks (the in-place chunk loop equals mapping ROMix over
the partition); PBKDF2 with one iteration keyed on the password with the
mixed buffer as salt, filling the output. -/
theorem scrypt_structure (pb : Pbkdf2) (hpb : PbLen pb) (pw salt : List Nat)
    (ps : ScryptParams) (out : List Nat) (hr : 0 < ps.r)
    (h1 : 0 < out.length) (h2 : out.length / 32 ≤ 4294967295) :
    (chunksOf (ps.r * 128) (pb pw salt 1 (ps.p * (ps.r * 128)))).length = ps.p
    ∧ (∀ c ∈ chunksOf (ps.r * 128) (pb pw salt 1 (ps.p * (ps.r * 128))),
        c.length = ps.r * 128)
    ∧ scrypt pb pw salt ps out =
        (.ok (),
          pb pw
            (((chunksOf (ps.r * 128) (pb pw salt 1 (ps.p * (ps.r * 128)))).map
                (fun c => scrypt_ro_mix c (2 ^ ps.log_n))).flatten)
            1 out.length) := by
  have hk : ps.r * 128 ≠ 0 := by omega
  have hblen : (pb pw salt 1 (ps.p * (ps.r * 128))).length = ps.p * (ps.r * 128) :=
    hpb pw salt 1 (ps.p * (ps.r * 128))
  refine ⟨chunksOf_length _ hk ps.p _ hblen, chunksOf_mem_length _ hk ps.p _ hblen, ?_⟩
  rw [scrypt_eq_valid pb pw salt ps out ⟨h1, h2⟩,
    chunksApply_eq_flatten_map _ _ hk ps.p _ hblen]

theorem scrypt_structure_witness :
    PbLen pbZero ∧ (0 : Nat) < 8 ∧
    scrypt pbZero [] [] ⟨15, 8, 1⟩ (List.replicate 32 0) =
      (.ok (),
        pbZero []
          (((chunksOf (8 * 128) (pbZero [] [] 1 (1 * (8 * 128)))).map
              (fun c => scrypt_ro_mix c (2 ^ 15))).flatten)
          1 (List.replicate (α := Nat) 32 0).length) :=
  ⟨pbZero_len, by decide,
    (scrypt_structure pbZero pbZero_len [] [] ⟨15, 8, 1⟩ (List.replicate 32 0)
      (by decide) (by simp) (by simp)).2.2⟩

/-- C3: `scrypt` is deterministic — two calls with equal passwords,
salts, parameters and output buffers produce identical results (the
model is a pure function of its arguments; the PBKDF2 collaborator is
deterministic by its interface contract). -/
theorem scrypt_deterministic (pb : Pbkdf2) (pw₁ pw₂ salt₁ salt₂ : List Nat)
    (ps₁ ps₂ : ScryptParams) (out₁ out₂ : List Nat)
    (hpw : pw₁ = pw₂) (hsalt : salt₁ = salt₂) (hps : ps₁ = ps₂) (hout : out₁ = out₂) :
    scrypt pb pw₁ salt₁ ps₁ out₁ = scrypt pb pw₂ salt₂ ps₂ out₂ := by
  subst hpw hsalt hps hout
  rfl

theorem scrypt_deterministic_witness :
    scrypt pbZero [1] [2] ⟨15, 8, 1⟩ (List.replicate 32 0) =
      scrypt pbZero [1] [2] ⟨15, 8, 1⟩ (List.replicate 32 0) :=
  scrypt_deterministic pbZero [1] [1] [2] [2] ⟨15, 8, 1⟩ ⟨15, 8, 1⟩
    (List.replicate 32 0) (List.replicate 32 0) rfl rfl rfl rfl

/-- C4: the parameter constructor rejects `r = 0`, rejects `p = 0`, and
rejects any combination whose derived size `128*r`, `2^log_n * (128*r)`
or `p * (128*r)` overflows the platform size type, with `InvalidParams`. -/
theorem scryptParams_new_rejects (log_n r p : Nat) :
    ScryptParams.new log_n 0 p = .error .mk
    ∧ ScryptParams.new log_n r 0 = .error .mk
    ∧ (128 * r > usizeMax ∨ 2 ^ log_n * (128 * r) > usizeMax
        ∨ p * (128 * r) > usizeMax →
        ScryptParams.new log_n r p = .error .mk) := by
  refine ⟨by simp [ScryptParams.new], ?_, ?_⟩
  · by_cases hr : r = 0 <;> simp [ScryptParams.new, hr]
  · intro h
    simp only [ScryptParams.new]
    split_ifs with h0 h1 h2 h3 h4
    any_goals rfl
    rcases h with h | h | h
    · exact absurd h h2
    · exact absurd h h3
    · exact absurd h h4

theorem scryptParams_new_rejects_witness :
    ScryptParams.new 64 0 1 = .error .mk
    ∧ ScryptParams.new 64 1 0 = .error .mk
    ∧ ScryptParams.new 64 1 1 = .error .mk :=
  ⟨(scryptParams_new_rejects 64 1 1).1, (scryptParams_new_rejects 64 1 1).2.1,
    (scryptParams_new_rejects 64 1 1).2.2
      (Or.inr (Or.inl (by norm_num [usizeMax])))⟩

/-- C5: `scrypt` never produces partial output — on the
`InvalidOutputLen` failure the output buffer is returned untouched, and
on success the buffer is completely filled (same length, fully written
by the final PBKDF2 call). -/
theorem scrypt_no_partial_output (pb : Pbkdf2) (hpb : PbLen pb)
    (pw salt : List Nat) (ps : ScryptParams) (out : List Nat) :
    ((scrypt pb pw salt ps out).1 = .error .mk → (scrypt pb pw salt ps out).2 = out)
    ∧ ((scrypt pb pw salt ps out).1 = .ok () →
        (scrypt pb pw salt ps out).2.length = out.length) := by
  by_cases h : out.length > 0 ∧ out.length / 32 ≤ 4294967295
  · rw [scrypt_eq_valid pb pw salt ps out h]
    exact ⟨fun he => by simp at he, fun _ => hpb _ _ _ _⟩
  · rw [scrypt_eq_invalid pb pw salt ps out h]
    exact ⟨fun _ => rfl, fun he => by simp at he⟩

theorem scrypt_no_partial_output_witness :
    (scrypt pbZero [] [] ⟨15, 8, 1⟩ []).2 = [] :=
  (scrypt_no_partial_output pbZero pbZero_len [] [] ⟨15, 8, 1⟩ []).1 rfl

/-- C6: processing the `p` ROMix chunks in any permuted order yields the
same mixed buffer, hence the same final `scrypt` result, because each
chunk's ROMix depends only on its own slice. -/
theorem scrypt_order_independent (pb : Pbkdf2) (hpb : PbLen pb) (order : List Nat)
    (pw salt : List Nat) (ps : ScryptParams) (out : List Nat) (hr : 0 < ps.r)
    (hperm : order.Perm (List.range ps.p)) :
    scryptOrd pb order pw salt ps out = scrypt pb pw salt ps out := by
  by_cases h : out.length > 0 ∧ out.length / 32 ≤ 4294967295
  · rw [scrypt_eq_valid pb pw salt ps out h]
    simp only [scryptOrd]
    rw [if_neg (not_not_intro h)]
    have hk : ps.r * 128 ≠ 0 := by omega
    have hblen : (pb pw salt 1 (ps.p * (ps.r * 128))).length = ps.p * (ps.r * 128) :=
      hpb pw salt 1 (ps.p * (ps.r * 128))
    have hcslen :
        (chunksOf (ps.r * 128) (pb pw salt 1 (ps.p * (ps.r * 128)))).length = ps.p :=
      chunksOf_length _ hk ps.p _ hblen
    rw [applyOrder_perm _ order _ (by rw [hcslen]; exact hperm),
      chunksApply_eq_flatten_map _ _ hk ps.p _ hblen]
  · simp only [scryptOrd]
    rw [scrypt_eq_invalid pb pw salt ps out h, if_pos h]

theorem scrypt_order_independent_witness :
    scryptOrd pbZero [0] [] [] ⟨15, 8, 1⟩ (List.replicate 32 0) =
      scrypt pbZero [] [] ⟨15, 8, 1⟩ (List.replicate 32 0) :=
  scrypt_order_independent pbZero pbZero_len [0] [] [] ⟨15, 8, 1⟩
    (List.replicate 32 0) (by decide) (by decide)

theorem splitD_dollar (t : List Char) : splitD ('$' :: t) = [] :: splitD t := by
  simp [splitD]

theorem splitD_ne_nil (s : List Char) : splitD s ≠ [] := by
  cases s with
  | nil => simp [splitD]
  | cons c t =>
    by_cases hc : c = '$'
    · simp [splitD, hc]
    · simp only [splitD, if_neg hc]
      cases h : splitD t <;> simp

theorem joinD_splitD (s : List Char) : joinD (splitD s) = s := by
  induction s with
  | nil => rfl
  | cons c t ih =>
    by_cases hc : c = '$'
    · subst hc
      simp only [splitD, if_pos rfl]
      cases h : splitD t with
      | nil => exact absurd h (splitD_ne_nil t)
      | cons f fs =>
        rw [h] at ih
        simpa [joinD] using ih
    · simp only [splitD, if_neg hc]
      cases h : splitD t with
      | nil => exact absurd h (splitD_ne_nil t)
      | cons f fs =>
        rw [h] at ih
        cases fs with
        | nil =>
          simp only [joinD] at ih ⊢
          rw [ih]
        | cons g fs2 =>
          simp only [joinD, List.cons_append] at ih ⊢
          rw [ih]

theorem splitD_append (a t : List Char) (h : '$' ∉ a) :
    splitD (a ++ '$' :: t) = a :: splitD t := by
  induction a with
  | nil => simp [splitD]
  | cons c a ih =>
    have hc : c ≠ '$' := fun hh => h (hh ▸ List.mem_cons_self c a)
    have h2 : '$' ∉ a := fun hh => h (List.mem_cons_of_mem c hh)
    simp only [List.cons_append, splitD, if_neg hc, List.append_eq]
    rw [ih h2]

theorem splitD_eq_single (t : List Char) (h : splitD t = [[]]) : t = [] := by
  cases t with
  | nil => rfl
  | cons c t2 =>
    exfalso
    by_cases hc : c = '$'
    · simp only [splitD, if_pos hc] at h
      exact splitD_ne_nil t2 (by injection h)
    · simp only [splitD, if_neg hc] at h
      cases h2 : splitD t2 with
      | nil => rw [h2] at h; simp at h
      | cons f fs => rw [h2] at h; simp at h

theorem splitD_getLast (s : List Char) :
    2 ≤ (splitD s).length → (splitD s).getLast? = some [] → s.getLast? = some '$' := by
  induction s with
  | nil =>
    intro h _
    simp [splitD] at h
  | cons c t ih =>
    intro hlen hlast
    by_cases hc : c = '$'
    · subst hc
      rw [splitD_dollar t] at hlen hlast
      by_cases ht : t = []
      · subst ht
        rfl
      · cases hst : splitD t with
        | nil => exact absurd hst (splitD_ne_nil t)
        | cons f fs =>
          rw [hst] at hlen hlast
          have hlast2 : (splitD t).getLast? = some [] := by
            rw [hst]
            rwa [List.getLast?_cons_cons] at hlast
          have hlen2 : 2 ≤ (splitD t).length := by
            rw [hst]
            cases fs with
            | nil =>
              exfalso
              simp only [List.getLast?_cons_cons] at hlast
              have hf : f = [] := by simpa using hlast
              exact ht (splitD_eq_single t (by rw [hst, hf]))
            | cons g fs2 => simp
          have htail := ih hlen2 hlast2
          rcases t with _ | ⟨d, t2⟩
          · exact absurd rfl ht
          · rwa [List.getLast?_cons_cons]
    · simp only [splitD, if_neg hc] at hlen hlast
      cases hst : splitD t with
      | nil => exact absurd hst (splitD_ne_nil t)
      | cons f fs =>
        rw [hst] at hlen hlast
        cases fs with
        | nil => simp at hlast
        | cons g fs2 =>
          have hlast2 : (splitD t).getLast? = some [] := by
            rw [hst]
            rw [List.getLast?_cons_cons]
            rwa [List.getLast?_cons_cons] at hlast
          have hlen2 : 2 ≤ (splitD t).length := by
            rw [hst]
            simp
          have ht : t ≠ [] := by
            intro h0
            subst h0
            simp [splitD] at hst
          have htail := ih hlen2 hlast2
          rcases t with _ | ⟨d, t2⟩
          · exact absurd rfl ht
          · rwa [List.getLast?_cons_cons]

theorem parseParams_error (f : List Char) (pv : List Nat) (e : CheckError)
    (h : parseParams f pv = .error e) : e = .InvalidFormat := by
  unfold parseParams at h
  split_ifs at h with h1 h2
  · cases hn : ScryptParams.new (pv.getD 0 0) (pv.getD 1 0) (pv.getD 2 0) with
    | error e2 =>
      rw [hn] at h
      simp [Except.mapError] at h
      exact h.symm
    | ok q =>
      rw [hn] at h
      simp [Except.mapError] at h
  · cases hn : ScryptParams.new (pv.getD 0 0) (readLe32 (pv.drop 1)) (readLe32 (pv.drop 5)) with
    | error e2 =>
      rw [hn] at h
      simp [Except.mapError] at h
      exact h.symm
    | ok q =>
      rw [hn] at h
      simp [Except.mapError] at h
  · injection h with h2
    exact h2.symm

theorem checkFields_shape (pb : Pbkdf2) (b64d : List Char → Option (List Nat))
    (pw : List Nat) (fields : List (List Char))
    (h : checkFields pb b64d pw fields ≠ .error .InvalidFormat) :
    ∃ f pstr sstr hstr, fields = [[], "rscrypt".data, f, pstr, sstr, hstr, []] := by
  rcases fields with _ | ⟨f0, fields⟩
  · simp [checkFields] at h
  by_cases h0 : f0 = ([] : List Char)
  case neg => simp [checkFields, h0] at h
  subst h0
  rcases fields with _ | ⟨f1, fields⟩
  · simp [checkFields] at h
  by_cases h1 : f1 = "rscrypt".data
  case neg => simp [checkFields, h1] at h
  subst h1
  rcases fields with _ | ⟨fstr, fields⟩
  · simp [checkFields] at h
  rcases fields with _ | ⟨pstr, fields⟩
  · simp [checkFields] at h
  cases hb : b64d pstr with
  | none => simp [checkFields, hb] at h
  | some pvec =>
  cases hpp : parseParams fstr pvec with
  | error e =>
    have he := parseParams_error fstr pvec e hpp
    subst he
    simp [checkFields, hb, hpp] at h
  | ok params =>
  rcases fields with _ | ⟨sstr, fields⟩
  · simp [checkFields, hb, hpp] at h
  cases hbs : b64d sstr with
  | none => simp [checkFields, hb, hpp, hbs] at h
  | some salt =>
  rcases fields with _ | ⟨hstr, fields⟩
  · simp [checkFields, hb, hpp, hbs] at h
  cases hbh : b64d hstr with
  | none => simp [checkFields, hb, hpp, hbs, hbh] at h
  | some hash =>
  rcases fields with _ | ⟨f6, fields⟩
  · simp [checkFields, hb, hpp, hbs, hbh] at h
  by_cases h6 : f6 = ([] : List Char)
  case neg => simp [checkFields, hb, hpp, hbs, hbh, h6] at h
  subst h6
  rcases fields with _ | ⟨f7, fields⟩
  · exact ⟨fstr, pstr, sstr, hstr, rfl⟩
  · simp [checkFields, hb, hpp, hbs, hbh] at h

/-- C7: `scrypt_check` rejects every malformed input with
`CheckError::InvalidFormat`, distinct from `CheckError::HashMismatch`:
inputs not starting with `"$rscrypt$"`; a format tag other than `"0"` or
`"1"`; a parameter field whose decoded length does not match the tag
(3 bytes for `"0"`, 9 for `"1"`); an undecodable base64 parameter, salt
or hash field; a missing final `"$"` or trailing data after it (i.e. the
input does not end in `'$'`).  A well-formed input whose recomputed hash
differs from the stored hash yields `CheckError::HashMismatch`. -/
theorem scrypt_check_rejects_malformed (pb : Pbkdf2)
    (b64d : List Char → Option (List Nat)) (pw : List Nat) (s : List Char) :
    ((¬ ∃ t, s = "$rscrypt$".data ++ t) →
      scrypt_check pb b64d pw s = .error .InvalidFormat)
    ∧ (∀ f rest, splitD s = [] :: "rscrypt".data :: f :: rest →
        f ≠ "0".data → f ≠ "1".data →
        scrypt_check pb b64d pw s = .error .InvalidFormat)
    ∧ (∀ f pstr rest pvec,
        splitD s = [] :: "rscrypt".data :: f :: pstr :: rest →
        b64d pstr = some pvec →
        ((f = "0".data ∧ pvec.length ≠ 3) ∨ (f = "1".data ∧ pvec.length ≠ 9)) →
        scrypt_check pb b64d pw s = .error .InvalidFormat)
    ∧ (∀ f pstr rest, splitD s = [] :: "rscrypt".data :: f :: pstr :: rest →
        b64d pstr = none → scrypt_check pb b64d pw s = .error .InvalidFormat)
    ∧ (∀ f pstr sstr rest,
        splitD s = [] :: "rscrypt".data :: f :: pstr :: sstr :: rest →
        b64d sstr = none → scrypt_check pb b64d pw s = .error .InvalidFormat)
    ∧ (∀ f pstr sstr hstr rest,
        splitD s = [] :: "rscrypt".data :: f :: pstr :: sstr :: hstr :: rest →
        b64d hstr = none → scrypt_check pb b64d pw s = .error .InvalidFormat)
    ∧ ((s = [] ∨ s.getLast? ≠ some '$') →
        scrypt_check pb b64d pw s = .error .InvalidFormat)
    ∧ (∀ f pstr sstr hstr pvec salt hash params,
        splitD s = [[], "rscrypt".data, f, pstr, sstr, hstr, []] →
        b64d pstr = some pvec → parseParams f pvec = .ok params →
        b64d sstr = some salt → b64d hstr = some hash →
        (scrypt pb pw salt params (List.replicate hash.length 0)).1 = .ok () →
        (scrypt pb pw salt params (List.replicate hash.length 0)).2 ≠ hash →
        scrypt_check pb b64d pw s = .error .HashMismatch) := by
  refine ⟨?_, ?_, ?_, ?_, ?_, ?_, ?_, ?_⟩
  · intro hnp
    by_contra hne
    have hne2 : checkFields pb b64d pw (splitD s) ≠ .error .InvalidFormat := hne
    obtain ⟨f, pstr, sstr, hstr, hsp⟩ := checkFields_shape pb b64d pw (splitD s) hne2
    refine hnp ⟨joinD [f, pstr, sstr, hstr, []], ?_⟩
    conv_lhs => rw [← joinD_splitD s, hsp]
    simp only [joinD]
    rfl
  · intro f rest hsp hf0 hf1
    show checkFields pb b64d pw (splitD s) = .error .InvalidFormat
    rw [hsp]
    rcases rest with _ | ⟨pstr, rest⟩
    · simp [checkFields]
    cases hb : b64d pstr with
    | none => simp [checkFields, hb]
    | some pvec => simp [checkFields, hb, parseParams, hf0, hf1]
  · intro f pstr rest pvec hsp hb hlen
    have hpp : parseParams f pvec = .error .InvalidFormat := by
      rcases hlen with ⟨hf, hl⟩ | ⟨hf, hl⟩
      · subst hf
        simp [parseParams, hl, show ("0".data : List Char) ≠ "1".data by decide]
      · subst hf
        simp [parseParams, hl, show ("1".data : List Char) ≠ "0".data by decide]
    show checkFields pb b64d pw (splitD s) = .error .InvalidFormat
    rw [hsp]
    simp [checkFields, hb, hpp]
  · intro f pstr rest hsp hb
    show checkFields pb b64d pw (splitD s) = .error .InvalidFormat
    rw [hsp]
    simp [checkFields, hb]
  · intro f pstr sstr rest hsp hbs
    show checkFields pb b64d pw (splitD s) = .error .InvalidFormat
    rw [hsp]
    cases hb : b64d pstr with
    | none => simp [checkFields, hb]
    | some pvec =>
      cases hpp : parseParams f pvec with
      | error e =>
        have he := parseParams_error f pvec e hpp
        subst he
        simp [checkFields, hb, hpp]
      | ok params => simp [checkFields, hb, hpp, hbs]
  · intro f pstr sstr hstr rest hsp hbh
    show checkFields pb b64d pw (splitD s) = .error .InvalidFormat
    rw [hsp]
    cases hb : b64d pstr with
    | none => simp [checkFields, hb]
    | some pvec =>
      cases hpp : parseParams f pvec with
      | error e =>
        have he := parseParams_error f pvec e hpp
        subst he
        simp [checkFields, hb, hpp]
      | ok params =>
        cases hbs : b64d sstr with
        | none => simp [checkFields, hb, hpp, hbs]
        | some salt => simp [checkFields, hb, hpp, hbs, hbh]
  · intro hor
    by_contra hne
    have hne2 : checkFields pb b64d pw (splitD s) ≠ .error .InvalidFormat := hne
    obtain ⟨f, pstr, sstr, hstr, hsp⟩ := checkFields_shape pb b64d pw (splitD s) hne2
    rcases hor with h0 | h0
    · subst h0
      rw [show splitD [] = [[]] from rfl] at hsp
      simp at hsp
    · refine h0 (splitD_getLast s ?_ ?_)
      · rw [hsp]
        simp
      · rw [hsp]
        rfl
  · intro f pstr sstr hstr pvec salt hash params hsp hb hpp hbs hbh hok hneq
    show checkFields pb b64d pw (splitD s) = .error .HashMismatch
    rw [hsp]
    simp [checkFields, hb, hpp, hbs, hbh, hok, hneq]

theorem scrypt_check_rejects_malformed_witness :
    scrypt_check pbZero (fun _ => none) [] [] = .error .InvalidFormat :=
  (scrypt_check_rejects_malformed pbZero (fun _ => none) [] []).2.2.2.2.2.2.1
    (Or.inl rfl)

/-- C8: `scrypt_simple` emits the compact variant (tag `"0"`, one byte
each for `log_n`, `r`, `p`) exactly when `r < 256` and `p < 256`, and
otherwise the expanded variant (tag `"1"`, `r` and `p` as 4-byte
little-endian); in both cases the output has the shape
`$rscrypt$<format>$<base64 params>$<base64 salt>$<base64 hash>$`. -/
theorem scrypt_simple_format (pb : Pbkdf2) (b64e : List Nat → List Char)
    (salt pw : List Nat) (params : ScryptParams) :
    (params.r < 256 ∧ params.p < 256 →
      scrypt_simple pb b64e salt pw params =
        "$rscrypt$0$".data ++ b64e [params.log_n, params.r, params.p] ++
          "$".data ++ b64e salt ++ "$".data ++
          b64e ((scrypt pb pw salt params (List.replicate 32 0)).2) ++ "$".data)
    ∧ (¬ (params.r < 256 ∧ params.p < 256) →
      scrypt_simple pb b64e salt pw params =
        "$rscrypt$1$".data ++
          b64e ([params.log_n] ++ le32 params.r ++ le32 params.p) ++
          "$".data ++ b64e salt ++ "$".data ++
          b64e ((scrypt pb pw salt params (List.replicate 32 0)).2) ++ "$".data) := by
  constructor
  · intro h
    simp only [scrypt_simple, if_pos h, Nat.mod_eq_of_lt h.1, Nat.mod_eq_of_lt h.2,
      List.append_assoc]
    rfl
  · intro h
    simp only [scrypt_simple, if_neg h, List.append_assoc]
    rfl

theorem scrypt_simple_format_witness :
    (8 : Nat) < 256 ∧ (1 : Nat) < 256 ∧
    scrypt_simple pbZero b64eW (List.replicate 16 7) [] ⟨15, 8, 1⟩ =
      "$rscrypt$0$".data ++ b64eW [15, 8, 1] ++ "$".data ++
        b64eW (List.replicate 16 7) ++ "$".data ++
        b64eW ((scrypt pbZero [] (List.replicate 16 7) ⟨15, 8, 1⟩
          (List.replicate 32 0)).2) ++ "$".data :=
  ⟨by decide, by decide,
    (scrypt_simple_format pbZero b64eW (List.replicate 16 7) [] ⟨15, 8, 1⟩).1
      ⟨by decide, by decide⟩⟩

theorem scryptParams_new_ok (log_n r p : Nat) (q : ScryptParams)
    (h : ScryptParams.new log_n r p = .ok q) :
    q = ⟨log_n, r, p⟩ ∧ r ≠ 0 ∧ p ≠ 0 := by
  simp only [ScryptParams.new] at h
  split_ifs at h with h1 h2 h3 h4 h5
  injection h with h6
  exact ⟨h6.symm, h1, h2⟩

theorem readLe32_le32 (x : Nat) (t : List Nat) (hx : x < 4294967296) :
    readLe32 (le32 x ++ t) = x := by
  simp only [readLe32, le32, List.cons_append, List.nil_append, List.getD_cons_zero,
    List.getD_cons_succ]
  omega

theorem readLe32_le32_self (x : Nat) (hx : x < 4294967296) :
    readLe32 (le32 x) = x := by
  have h := readLe32_le32 x [] hx
  simpa using h

theorem splitD_six (a1 a2 a3 a4 : List Char) (h1 : '$' ∉ a1) (h2 : '$' ∉ a2)
    (h3 : '$' ∉ a3) (h4 : '$' ∉ a4) :
    splitD ('$' :: ("rscrypt".data ++ '$' :: (a1 ++ '$' :: (a2 ++ '$' ::
        (a3 ++ '$' :: (a4 ++ ['$'])))))) =
      [[], "rscrypt".data, a1, a2, a3, a4, []] := by
  rw [splitD_dollar, splitD_append _ _ (by decide), splitD_append _ _ h1,
    splitD_append _ _ h2, splitD_append _ _ h3, splitD_append _ _ h4]
  rfl

/-- C10: `scrypt_check` does not enforce the 128-bit salt or 256-bit
hash sizes of the `scrypt_simple` encoding — salt and hash fields of any
decoded length are accepted, the recomputed key is sized to the decoded
hash's length and compared; a hash field decoding to zero bytes makes
the inner `scrypt` call fail and is reported as `InvalidFormat`, not
`HashMismatch`. -/
theorem scrypt_check_sizes (pb : Pbkdf2) (b64d : List Char → Option (List Nat))
    (pw : List Nat) (s f pstr sstr hstr : List Char) (pvec salt hash : List Nat)
    (params : ScryptParams)
    (hsp : splitD s = [[], "rscrypt".data, f, pstr, sstr, hstr, []])
    (hb : b64d pstr = some pvec) (hpp : parseParams f pvec = .ok params)
    (hbs : b64d sstr = some salt) (hbh : b64d hstr = some hash) :
    (hash = [] → scrypt_check pb b64d pw s = .error .InvalidFormat)
    ∧ (hash ≠ [] → hash.length / 32 ≤ 4294967295 →
        scrypt_check pb b64d pw s =
          if (scrypt pb pw salt params (List.replicate hash.length 0)).2 = hash
          then .ok () else .error .HashMismatch) := by
  constructor
  · intro h0
    subst h0
    show checkFields pb b64d pw (splitD s) = .error .InvalidFormat
    rw [hsp]
    simp [checkFields, hb, hpp, hbs, hbh,
      scrypt_eq_invalid pb pw salt params [] (by simp)]
  · intro hne hbound
    have hlen : (List.replicate hash.length (0 : Nat)).length > 0
        ∧ (List.replicate hash.length (0 : Nat)).length / 32 ≤ 4294967295 := by
      rw [List.length_replicate]
      exact ⟨List.length_pos.mpr hne, hbound⟩
    have hval := scrypt_eq_valid pb pw salt params (List.replicate hash.length 0) hlen
    show checkFields pb b64d pw (splitD s) =
      if (scrypt pb pw salt params (List.replicate hash.length 0)).2 = hash
      then .ok () else .error .HashMismatch
    rw [hsp]
    simp only [checkFields, hb, hpp, hbs, hbh, hval]
    simp

theorem scrypt_check_sizes_witness :
    scrypt_check pbZero b64dC10 [] "$rscrypt$0$p$s$h$".data = .error .InvalidFormat :=
  (scrypt_check_sizes pbZero b64dC10 [] "$rscrypt$0$p$s$h$".data ['0'] ['p'] ['s'] ['h']
      [15, 8, 1] [1, 2, 3] [] ⟨15, 8, 1⟩ (by decide) rfl rfl rfl rfl).1 rfl

theorem checkFields_ok (pb : Pbkdf2) (b64d : List Char → Option (List Nat))
    (pw : List Nat) (f pstr sstr hstr : List Char) (pvec salt hash : List Nat)
    (params : ScryptParams)
    (hb : b64d pstr = some pvec) (hpp : parseParams f pvec = .ok params)
    (hbs : b64d sstr = some salt) (hbh : b64d hstr = some hash)
    (hok : (scrypt pb pw salt params (List.replicate hash.length 0)).1 = .ok ())
    (heq : (scrypt pb pw salt params (List.replicate hash.length 0)).2 = hash) :
    checkFields pb b64d pw [[], "rscrypt".data, f, pstr, sstr, hstr, []] = .ok () := by
  simp [checkFields, hb, hpp, hbs, hbh, hok, heq]

/-- C9: round-trip — for any valid parameters and any salt, checking a
password against the string `scrypt_simple` produced for it succeeds.
The base64 collaborator is assumed (per its interface) to decode its own
encodings and to emit no `'$'`, stated pointwise at the three encoded
fields. -/
theorem scrypt_simple_check_roundtrip (pb : Pbkdf2) (b64e : List Nat → List Char)
    (b64d : List Char → Option (List Nat)) (pw salt : List Nat)
    (log_n r p : Nat) (params : ScryptParams)
    (hpb : PbLen pb)
    (hnew : ScryptParams.new log_n r p = .ok params)
    (hr32 : r < 4294967296) (hp32 : p < 4294967296)
    (hpe : b64d (b64e (if r < 256 ∧ p < 256 then [log_n, r % 256, p % 256]
        else [log_n] ++ le32 r ++ le32 p)) =
      some (if r < 256 ∧ p < 256 then [log_n, r % 256, p % 256]
        else [log_n] ++ le32 r ++ le32 p))
    (hse : b64d (b64e salt) = some salt)
    (hhe : b64d (b64e ((scrypt pb pw salt params (List.replicate 32 0)).2)) =
      some ((scrypt pb pw salt params (List.replicate 32 0)).2))
    (hdp : '$' ∉ b64e (if r < 256 ∧ p < 256 then [log_n, r % 256, p % 256]
        else [log_n] ++ le32 r ++ le32 p))
    (hds : '$' ∉ b64e salt)
    (hdh : '$' ∉ b64e ((scrypt pb pw salt params (List.replicate 32 0)).2)) :
    scrypt_check pb b64d pw (scrypt_simple pb b64e salt pw params) = .ok () := by
  obtain ⟨hq, hr0, hp0⟩ := scryptParams_new_ok log_n r p params hnew
  subst hq
  have h32 : (List.replicate (α := Nat) 32 0).length > 0
      ∧ (List.replicate (α := Nat) 32 0).length / 32 ≤ 4294967295 := by simp
  have hval := scrypt_eq_valid pb pw salt ⟨log_n, r, p⟩ (List.replicate 32 0) h32
  have hdklen :
      ((scrypt pb pw salt ⟨log_n, r, p⟩ (List.replicate 32 0)).2).length = 32 := by
    rw [hval]
    simp [hpb pw _ 1 _]
  have hok2 : (scrypt pb pw salt ⟨log_n, r, p⟩
      (List.replicate ((scrypt pb pw salt ⟨log_n, r, p⟩
        (List.replicate 32 0)).2).length 0)).1 = .ok () := by
    rw [hdklen, hval]
  have heq2 : (scrypt pb pw salt ⟨log_n, r, p⟩
      (List.replicate ((scrypt pb pw salt ⟨log_n, r, p⟩
        (List.replicate 32 0)).2).length 0)).2 =
      (scrypt pb pw salt ⟨log_n, r, p⟩ (List.replicate 32 0)).2 := by
    rw [hdklen]
  by_cases hcase : r < 256 ∧ p < 256
  · rw [if_pos hcase] at hpe hdp
    have hs : scrypt_simple pb b64e salt pw ⟨log_n, r, p⟩ =
        '$' :: ("rscrypt".data ++ '$' :: ("0".data ++ '$' ::
          (b64e [log_n, r % 256, p % 256] ++ '$' :: (b64e salt ++ '$' ::
            (b64e ((scrypt pb pw salt ⟨log_n, r, p⟩ (List.replicate 32 0)).2) ++
              ['$']))))) := by
      simp only [scrypt_simple]
      rw [if_pos (show (ScryptParams.mk log_n r p).r < 256
        ∧ (ScryptParams.mk log_n r p).p < 256 from hcase)]
      simp only [List.append_assoc]
      rfl
    rw [hs]
    show checkFields pb b64d pw (splitD _) = .ok ()
    rw [splitD_six _ _ _ _ (by decide) hdp hds hdh]
    have hppok : parseParams "0".data [log_n, r % 256, p % 256] = .ok ⟨log_n, r, p⟩ := by
      have hn2 : ScryptParams.new log_n (r % 256) (p % 256) = .ok ⟨log_n, r, p⟩ := by
        rw [Nat.mod_eq_of_lt hcase.1, Nat.mod_eq_of_lt hcase.2]
        exact hnew
      simp [parseParams, hn2, Except.mapError]
    exact checkFields_ok pb b64d pw _ _ _ _ _ _ _ _ hpe hppok hse hhe hok2 heq2
  · rw [if_neg hcase] at hpe hdp
    have hs : scrypt_simple pb b64e salt pw ⟨log_n, r, p⟩ =
        '$' :: ("rscrypt".data ++ '$' :: ("1".data ++ '$' ::
          (b64e ([log_n] ++ le32 r ++ le32 p) ++ '$' :: (b64e salt ++ '$' ::
            (b64e ((scrypt pb pw salt ⟨log_n, r, p⟩ (List.replicate 32 0)).2) ++
              ['$']))))) := by
      simp only [scrypt_simple]
      rw [if_neg (show ¬ ((ScryptParams.mk log_n r p).r < 256
        ∧ (ScryptParams.mk log_n r p).p < 256) from hcase)]
      simp only [List.append_assoc]
      rfl
    rw [hs]
    show checkFields pb b64d pw (splitD _) = .ok ()
    rw [splitD_six _ _ _ _ (by decide) hdp hds hdh]
    have hppok : parseParams "1".data ([log_n] ++ le32 r ++ le32 p) =
        .ok ⟨log_n, r, p⟩ := by
      have hd4 : (le32 r ++ le32 p).drop 4 = le32 p := by
        simp [le32]
      have hlr : (le32 r).length = 4 := rfl
      have hlp : (le32 p).length = 4 := rfl
      simp [parseParams, hd4, hlr, hlp, readLe32_le32 r (le32 p) hr32,
        readLe32_le32_self p hp32, hnew, Except.mapError,
        show ("1".data : List Char) ≠ "0".data by decide]
    exact checkFields_ok pb b64d pw _ _ _ _ _ _ _ _ hpe hppok hse hhe hok2 heq2

theorem scrypt_simple_check_roundtrip_witness :
    scrypt_check pbZero b64dW []
      (scrypt_simple pbZero b64eW (List.replicate 16 7) [] ⟨15, 8, 1⟩) = .ok () :=
  scrypt_simple_check_roundtrip pbZero b64eW b64dW [] (List.replicate 16 7)
    15 8 1 ⟨15, 8, 1⟩ pbZero_len rfl (by decide) (by decide) (by decide)
    (by decide) (by decide) (by decide) (by decide) (by decide)
